import Mathlib

/-
Verification of the prefect client slice: collection utilities
(src/prefect/utilities/collections.py), workflow definition and invocation
(src/prefect/core/flow.py), and variable access (src/prefect/variables.py).

Python dicts are modelled as association lists in insertion order; a dict
always has pairwise-distinct keys, which theorems carry as a hypothesis
where it matters.
-/

namespace PrefectSpec

/-- A value stored in a (possibly nested) dictionary: either a non-mapping
leaf or a further dictionary, mirroring the `isinstance(v, dict)` test in
`dict_to_flatdict`. -/
inductive NVal (K V : Type) where
  | leaf : V → NVal K V
  | node : List (K × NVal K V) → NVal K V

/-- A nested dictionary: insertion-ordered association list. -/
abbrev NDict (K V : Type) := List (K × NVal K V)

/-- A flattened dictionary: keys are key-path tuples, values are leaves. -/
abbrev FlatDict (K V : Type) := List (List K × V)

variable {K V : Type}

/-- Embedding of `dict_to_flatdict(dct, _parent)`: recursive descent over the
entries; a leaf contributes the pair (parent path extended by its key, value),
a sub-dict is flattened under the extended parent path.  The Python function
builds a dict from the accumulated items; for dict inputs (distinct keys at
every level) the item paths are pairwise distinct (`dict_to_flatdict_nodup`
below), so the items list itself is that dict. -/
def dict_to_flatdict : List K → NDict K V → FlatDict K V
  | _, [] => []
  | parent, (k, NVal.leaf v) :: rest =>
      (parent ++ [k], v) :: dict_to_flatdict parent rest
  | parent, (k, NVal.node sub) :: rest =>
      dict_to_flatdict (parent ++ [k]) sub ++ dict_to_flatdict parent rest
termination_by _ d => sizeOf d
decreasing_by all_goals (simp_wf; try omega)

/-- First binding of a key in a Python dict (keys are unique, so this is the
binding). -/
def lookup [DecidableEq K] : NDict K V → K → Option (NVal K V)
  | [], _ => none
  | (k', x) :: rest, k => if k = k' then some x else lookup rest k

/-- Python dict assignment `d[k] = x`: replace the value at `k` in place when
the key exists, otherwise append the binding at the end (insertion order). -/
def setKey [DecidableEq K] : NDict K V → K → NVal K V → NDict K V
  | [], k, x => [(k, x)]
  | (k', y) :: rest, k, x =>
      if k = k' then (k, x) :: rest else (k', y) :: setKey rest k x

/-- One loop iteration of `flatdict_to_dict`: walk `key_tuple[:-1]` with
`setdefault(prefix_key, typ())`, then assign `current[key_tuple[-1]] = value`.
`none` models the Python exceptions: `IndexError` on an empty key tuple, and
`TypeError`/`AttributeError` when the walk runs into a non-dict value. -/
def insertPath [DecidableEq K] : NDict K V → List K → V → Option (NDict K V)
  | _, [], _ => none
  | d, [k], v => some (setKey d k (NVal.leaf v))
  | d, k :: k' :: rest, v =>
      match lookup d k with
      | some (NVal.leaf _) => none
      | some (NVal.node s) =>
          (insertPath s (k' :: rest) v).map (fun s' => setKey d k (NVal.node s'))
      | none =>
          (insertPath ([] : NDict K V) (k' :: rest) v).map
            (fun s' => d ++ [(k, NVal.node s')])

/-- The loop of `flatdict_to_dict` over the items of the flat dict, threading
the result dict; any exception aborts the whole call (`none`). -/
def unflatten_fold [DecidableEq K] : NDict K V → FlatDict K V → Option (NDict K V)
  | acc, [] => some acc
  | acc, (p, v) :: rest =>
      match insertPath acc p v with
      | some acc' => unflatten_fold acc' rest
      | none => none

/-- Embedding of `flatdict_to_dict(dct)`: start from the empty result dict and
insert every item in order. -/
def flatdict_to_dict [DecidableEq K] (dct : FlatDict K V) : Option (NDict K V) :=
  unflatten_fold [] dct

/-- Well-formedness of a nested dict as produced by Python: keys at every
level are pairwise distinct, and (for the amended round-trip law) no value is
an empty sub-dict. -/
def wf_dict [DecidableEq K] : NDict K V → Bool
  | [] => true
  | (k, NVal.leaf _) :: rest =>
      !(decide (k ∈ rest.map Prod.fst)) && wf_dict rest
  | (k, NVal.node sub) :: rest =>
      !(decide (k ∈ rest.map Prod.fst)) && !sub.isEmpty &&
        wf_dict sub && wf_dict rest
termination_by d => sizeOf d
decreasing_by all_goals (simp_wf; try omega)

/-- Flattening distributes over concatenation of entry lists. -/
theorem dict_to_flatdict_append (parent : List K) (d₁ d₂ : NDict K V) :
    dict_to_flatdict parent (d₁ ++ d₂) =
      dict_to_flatdict parent d₁ ++ dict_to_flatdict parent d₂ := by
  induction parent, d₁ using dict_to_flatdict.induct with
  | case1 parent => simp [dict_to_flatdict]
  | case2 parent k v rest ih => simp [dict_to_flatdict, ih]
  | case3 parent k sub rest ih₁ ih₂ => simp [dict_to_flatdict, ih₂]

/-- Prepending to the parent path prepends to every flat key. -/
theorem dict_to_flatdict_parent_append (p₀ parent : List K) (d : NDict K V) :
    dict_to_flatdict (p₀ ++ parent) d =
      (dict_to_flatdict parent d).map (fun pv => (p₀ ++ pv.1, pv.2)) := by
  induction parent, d using dict_to_flatdict.induct with
  | case1 parent => simp [dict_to_flatdict]
  | case2 parent k v rest ih => simp [dict_to_flatdict, ih]
  | case3 parent k sub rest ih₁ ih₂ =>
      simp only [dict_to_flatdict, List.map_append, ← ih₂]
      rw [List.append_assoc, ih₁]

/-- Flattening under a parent path is the parent-free flattening with the
parent prepended to every key. -/
theorem dict_to_flatdict_eq_map (parent : List K) (d : NDict K V) :
    dict_to_flatdict parent d =
      (dict_to_flatdict [] d).map (fun pv => (parent ++ pv.1, pv.2)) := by
  have h := dict_to_flatdict_parent_append parent [] d
  simpa using h

/-- Every flat key is the parent path, then a top-level key of the dict, then
a (possibly empty) tail.  In particular flat keys are never empty. -/
theorem dict_to_flatdict_shape (parent : List K) (d : NDict K V) :
    ∀ pv ∈ dict_to_flatdict parent d,
      ∃ k t, k ∈ d.map Prod.fst ∧ pv.1 = parent ++ k :: t := by
  induction parent, d using dict_to_flatdict.induct with
  | case1 parent => simp [dict_to_flatdict]
  | case2 parent k v rest ih =>
      intro pv hpv
      simp only [dict_to_flatdict, List.mem_cons] at hpv
      rcases hpv with h | h
      · exact ⟨k, [], by simp [h]⟩
      · obtain ⟨k', t, hk', ht⟩ := ih pv h
        exact ⟨k', t, by simp [hk'], ht⟩
  | case3 parent k sub rest ih₁ ih₂ =>
      intro pv hpv
      simp only [dict_to_flatdict, List.mem_append] at hpv
      rcases hpv with h | h
      · obtain ⟨k', t, _, ht⟩ := ih₁ pv h
        exact ⟨k, k' :: t, by simp, by simp [ht]⟩
      · obtain ⟨k', t, hk', ht⟩ := ih₂ pv h
        exact ⟨k', t, by simp [hk'], ht⟩

/-- Flat keys of a parent-free flattening are nonempty. -/
theorem dict_to_flatdict_key_ne_nil (d : NDict K V) :
    ∀ pv ∈ dict_to_flatdict [] d, pv.1 ≠ [] := by
  intro pv hpv
  obtain ⟨k, t, _, ht⟩ := dict_to_flatdict_shape [] d pv hpv
  simp [ht]

/-- A well-formed nonempty dict has a nonempty flattening. -/
theorem dict_to_flatdict_ne_nil [DecidableEq K] (parent : List K) (d : NDict K V)
    (hwf : wf_dict d = true) (hne : d ≠ []) :
    dict_to_flatdict parent d ≠ [] := by
  induction parent, d using dict_to_flatdict.induct with
  | case1 parent => exact absurd rfl hne
  | case2 parent k v rest ih => simp [dict_to_flatdict]
  | case3 parent k sub rest ih₁ ih₂ =>
      simp only [wf_dict, Bool.and_eq_true, Bool.not_eq_true', List.isEmpty_eq_false]
        at hwf
      have hsub := ih₁ hwf.1.2 hwf.1.1.2
      simp only [dict_to_flatdict]
      intro hcontra
      exact hsub (List.append_eq_nil.mp hcontra).1

section AssocLemmas

variable [DecidableEq K]

theorem lookup_eq_none_iff {d : NDict K V} {k : K} :
    lookup d k = none ↔ k ∉ d.map Prod.fst := by
  induction d with
  | nil => simp [lookup]
  | cons e rest ih =>
      obtain ⟨k', x⟩ := e
      by_cases h : k = k' <;> simp [lookup, h, ih]

theorem exists_of_lookup_eq_some {d : NDict K V} {k : K} {x : NVal K V}
    (h : lookup d k = some x) :
    ∃ d₁ d₂, d = d₁ ++ (k, x) :: d₂ ∧ k ∉ d₁.map Prod.fst := by
  induction d with
  | nil => simp [lookup] at h
  | cons e rest ih =>
      obtain ⟨k', y⟩ := e
      by_cases hk : k = k'
      · subst hk
        simp only [lookup, if_true, eq_self_iff_true, Option.some.injEq] at h
        exact ⟨[], rest, by simp [h]⟩
      · simp only [lookup, if_neg hk] at h
        obtain ⟨d₁, d₂, hd, hmem⟩ := ih h
        exact ⟨(k', y) :: d₁, d₂, by simp [hd], by simp [hmem, hk]⟩

theorem mem_of_lookup_eq_some {d : NDict K V} {k : K} {x : NVal K V}
    (h : lookup d k = some x) : (k, x) ∈ d := by
  obtain ⟨d₁, d₂, hd, _⟩ := exists_of_lookup_eq_some h
  simp [hd]

theorem lookup_append_of_none {d₁ d₂ : NDict K V} {k : K}
    (h : lookup d₁ k = none) : lookup (d₁ ++ d₂) k = lookup d₂ k := by
  induction d₁ with
  | nil => simp
  | cons e rest ih =>
      obtain ⟨k', x⟩ := e
      by_cases hk : k = k' <;> simp_all [lookup]

theorem setKey_of_not_mem {d : NDict K V} {k : K} (x : NVal K V)
    (h : k ∉ d.map Prod.fst) : setKey d k x = d ++ [(k, x)] := by
  induction d with
  | nil => simp [setKey]
  | cons e rest ih =>
      obtain ⟨k', y⟩ := e
      simp only [List.map_cons, List.mem_cons] at h
      push_neg at h
      simp [setKey, h.1, ih h.2]

theorem setKey_append_of_not_mem {d₁ d₂ : NDict K V} {k : K} {y : NVal K V}
    (x : NVal K V) (h : k ∉ d₁.map Prod.fst) :
    setKey (d₁ ++ (k, y) :: d₂) k x = d₁ ++ (k, x) :: d₂ := by
  induction d₁ with
  | nil => simp [setKey]
  | cons e rest ih =>
      obtain ⟨k', z⟩ := e
      simp only [List.map_cons, List.mem_cons] at h
      push_neg at h
      simp [setKey, h.1, ih h.2]

theorem lookup_setKey_self {d : NDict K V} (k : K) (x : NVal K V) :
    lookup (setKey d k x) k = some x := by
  induction d with
  | nil => simp [setKey, lookup]
  | cons e rest ih =>
      obtain ⟨k', y⟩ := e
      by_cases hk : k = k' <;> simp [setKey, lookup, hk, ih]

theorem setKey_setKey_self {d : NDict K V} (k : K) (x y : NVal K V) :
    setKey (setKey d k x) k y = setKey d k y := by
  induction d with
  | nil => simp [setKey]
  | cons e rest ih =>
      obtain ⟨k', z⟩ := e
      by_cases hk : k = k' <;> simp [setKey, hk, ih]

theorem setKey_lookup_self {d : NDict K V} {k : K} {x : NVal K V}
    (h : lookup d k = some x) : setKey d k x = d := by
  obtain ⟨d₁, d₂, hd, hmem⟩ := exists_of_lookup_eq_some h
  rw [hd, setKey_append_of_not_mem x hmem]

end AssocLemmas

/-- Everything the flattening of a single entry contributes is contributed by
the flattening of any dict containing that entry. -/
theorem flatdict_mem_of_entry (parent : List K) {d : NDict K V} {k : K}
    {x : NVal K V} (h : (k, x) ∈ d) :
    ∀ q ∈ dict_to_flatdict parent [(k, x)], q ∈ dict_to_flatdict parent d := by
  intro q hq
  induction d with
  | nil => simp at h
  | cons e rest ih =>
      rcases List.mem_cons.mp h with he | he
      · subst he
        cases x with
        | leaf v =>
            simp only [dict_to_flatdict, List.mem_singleton] at hq
            simp [dict_to_flatdict, hq]
        | node s =>
            simp only [dict_to_flatdict, List.append_nil] at hq
            simp [dict_to_flatdict, List.mem_append, hq]
      · obtain ⟨k', y⟩ := e
        have hrest := ih he
        cases y with
        | leaf v => simp [dict_to_flatdict, hrest]
        | node s => simp [dict_to_flatdict, hrest]

/-- A leaf entry of a dict shows up in the parent-free flattening as its
singleton path. -/
theorem mem_flatdict_of_leaf {d : NDict K V} {k : K} {v : V}
    (h : (k, NVal.leaf v) ∈ d) : ([k], v) ∈ dict_to_flatdict [] d := by
  refine flatdict_mem_of_entry [] h ([k], v) ?_
  simp [dict_to_flatdict]

/-- A path flattened from a node entry's sub-dict shows up in the parent-free
flattening of the dict, with the node's key prepended. -/
theorem mem_flatdict_of_node {d : NDict K V} {k : K} {s : NDict K V}
    {q : List K × V} (h : (k, NVal.node s) ∈ d)
    (hq : q ∈ dict_to_flatdict [] s) :
    (k :: q.1, q.2) ∈ dict_to_flatdict [] d := by
  refine flatdict_mem_of_entry [] h (k :: q.1, q.2) ?_
  simp only [dict_to_flatdict, List.append_nil, List.nil_append,
    dict_to_flatdict_eq_map [k] s]
  exact List.mem_map.mpr ⟨q, hq, rfl⟩

section UnflattenLemmas

variable [DecidableEq K]

theorem unflatten_fold_append (acc : NDict K V) (xs ys : FlatDict K V) :
    unflatten_fold acc (xs ++ ys) =
      match unflatten_fold acc xs with
      | some m => unflatten_fold m ys
      | none => none := by
  induction xs generalizing acc with
  | nil => simp [unflatten_fold]
  | cons pv rest ih =>
      obtain ⟨p, v⟩ := pv
      simp only [List.cons_append, unflatten_fold]
      cases insertPath acc p v with
      | none => rfl
      | some acc' => exact ih acc'

/-- Inserting a batch of paths that all start with key `k`, when `k` is
already bound to a sub-dict, is inserting the tails into that sub-dict and
re-binding `k` to the result. -/
theorem unflatten_fold_node (qs : FlatDict K V) :
    ∀ (acc s : NDict K V) (k : K),
      (∀ pv ∈ qs, pv.1 ≠ []) → lookup acc k = some (NVal.node s) →
      unflatten_fold acc (qs.map (fun pv => (k :: pv.1, pv.2))) =
        (unflatten_fold s qs).map (fun s' => setKey acc k (NVal.node s')) := by
  induction qs with
  | nil =>
      intro acc s k _ hl
      simp [unflatten_fold, setKey_lookup_self hl]
  | cons pv qs' ih =>
      intro acc s k hne hl
      obtain ⟨q, v⟩ := pv
      match q, hne (q, v) (by simp) with
      | a :: b, _ =>
        simp only [List.map_cons, unflatten_fold, insertPath, hl]
        cases hins : insertPath s (a :: b) v with
        | none => simp
        | some s₁ =>
            simp only [Option.map_some']
            rw [ih (setKey acc k (NVal.node s₁)) s₁ k
              (fun pv h => hne pv (by simp [h])) (lookup_setKey_self k _)]
            simp only [setKey_setKey_self]

/-- Inserting a batch of paths that all start with a key `k` absent from the
result dict builds the sub-dict from scratch and appends the binding. -/
theorem unflatten_fold_fresh (qs : FlatDict K V) (acc : NDict K V) (k : K)
    (hne : qs ≠ []) (hp : ∀ pv ∈ qs, pv.1 ≠ []) (hl : lookup acc k = none) :
    unflatten_fold acc (qs.map (fun pv => (k :: pv.1, pv.2))) =
      (unflatten_fold [] qs).map (fun s' => acc ++ [(k, NVal.node s')]) := by
  match qs, hne with
  | (q, v) :: qs', _ =>
    match q, hp (q, v) (by simp) with
    | a :: b, _ =>
      simp only [List.map_cons, unflatten_fold, insertPath, hl]
      cases hins : insertPath ([] : NDict K V) (a :: b) v with
      | none => simp
      | some s₁ =>
          simp only [Option.map_some']
          have hk : k ∉ acc.map Prod.fst := lookup_eq_none_iff.mp hl
          have hl' : lookup (acc ++ [(k, NVal.node s₁)]) k = some (NVal.node s₁) := by
            rw [lookup_append_of_none hl]; simp [lookup]
          rw [unflatten_fold_node qs' (acc ++ [(k, NVal.node s₁)]) s₁ k
            (fun pv h => hp pv (by simp [h])) hl']
          have hset : ∀ s' : NDict K V,
              setKey (acc ++ [(k, NVal.node s₁)]) k (NVal.node s') =
                acc ++ [(k, NVal.node s')] := by
            intro s'
            exact setKey_append_of_not_mem _ hk
          simp only [hset]

/-- Main unflatten-of-flatten lemma: inserting the flattening of a
well-formed dict `d` into a result dict whose keys avoid the top-level keys
of `d` appends `d` to the result dict unchanged. -/
theorem unflatten_fold_flatdict (parent : List K) (d : NDict K V) :
    ∀ acc : NDict K V, wf_dict d = true →
      (∀ k ∈ d.map Prod.fst, lookup acc k = none) →
      unflatten_fold acc (dict_to_flatdict [] d) = some (acc ++ d) := by
  induction parent, d using dict_to_flatdict.induct with
  | case1 parent =>
      intro acc _ _
      simp [unflatten_fold, dict_to_flatdict]
  | case2 parent k v rest ih =>
      intro acc hwf hacc
      simp only [wf_dict, Bool.and_eq_true, Bool.not_eq_true', decide_eq_false_iff_not]
        at hwf
      have hlacc : lookup acc k = none := hacc k (by simp)
      have hkacc : k ∉ acc.map Prod.fst := lookup_eq_none_iff.mp hlacc
      simp only [dict_to_flatdict, unflatten_fold, insertPath,
        setKey_of_not_mem _ hkacc]
      rw [ih (acc ++ [(k, NVal.leaf v)]) hwf.2 ?_]
      · simp
      · intro k' hk'
        rw [lookup_append_of_none (hacc k' (by simp [hk']))]
        have : k' ≠ k := fun h => hwf.1 (h ▸ hk')
        simp [lookup, this]
  | case3 parent k sub rest ih₁ ih₂ =>
      intro acc hwf hacc
      simp only [wf_dict, Bool.and_eq_true, Bool.not_eq_true',
        decide_eq_false_iff_not, List.isEmpty_eq_false] at hwf
      obtain ⟨⟨⟨hknotin, hsubne⟩, hwfsub⟩, hwfrest⟩ := hwf
      have hlacc : lookup acc k = none := hacc k (by simp)
      have hqs : dict_to_flatdict ([] : List K) sub ≠ [] :=
        dict_to_flatdict_ne_nil [] sub hwfsub hsubne
      have hmap : dict_to_flatdict ([k] : List K) sub =
          (dict_to_flatdict [] sub).map (fun pv => (k :: pv.1, pv.2)) := by
        rw [dict_to_flatdict_eq_map [k] sub]
        simp
      simp only [dict_to_flatdict, List.nil_append, hmap, unflatten_fold_append]
      rw [unflatten_fold_fresh _ acc k hqs (dict_to_flatdict_key_ne_nil sub) hlacc]
      rw [ih₁ [] hwfsub (by simp [lookup])]
      simp only [List.nil_append, Option.map_some']
      rw [ih₂ (acc ++ [(k, NVal.node sub)]) hwfrest ?_]
      · simp
      · intro k' hk'
        rw [lookup_append_of_none (hacc k' (by simp [hk']))]
        have : k' ≠ k := fun h => hknotin (h ▸ hk')
        simp [lookup, this]

end UnflattenLemmas

/-- The flat keys produced from a well-formed dict are pairwise distinct, so
the items list returned by `dict_to_flatdict` is itself the dict the Python
function builds from it. -/
theorem dict_to_flatdict_nodup [DecidableEq K] (parent : List K) (d : NDict K V)
    (hwf : wf_dict d = true) :
    ((dict_to_flatdict parent d).map Prod.fst).Nodup := by
  induction parent, d using dict_to_flatdict.induct with
  | case1 parent => simp [dict_to_flatdict]
  | case2 parent k v rest ih =>
      simp only [wf_dict, Bool.and_eq_true, Bool.not_eq_true',
        decide_eq_false_iff_not] at hwf
      simp only [dict_to_flatdict, List.map_cons, List.nodup_cons]
      refine ⟨?_, ih hwf.2⟩
      intro hmem
      obtain ⟨pv, hpv, heq⟩ := List.mem_map.mp hmem
      obtain ⟨k', t, hk', ht⟩ := dict_to_flatdict_shape parent rest pv hpv
      rw [ht] at heq
      have h : k :: ([] : List K) = k' :: t := List.append_cancel_left heq.symm
      have hkk : k = k' := ((List.cons.injEq _ _ _ _).mp h).1
      rw [← hkk] at hk'
      exact hwf.1 hk'
  | case3 parent k sub rest ih₁ ih₂ =>
      simp only [wf_dict, Bool.and_eq_true, Bool.not_eq_true',
        decide_eq_false_iff_not, List.isEmpty_eq_false] at hwf
      obtain ⟨⟨⟨hknotin, _⟩, hwfsub⟩, hwfrest⟩ := hwf
      simp only [dict_to_flatdict, List.map_append]
      refine List.Nodup.append (ih₁ hwfsub) (ih₂ hwfrest) ?_
      intro q hq₁ hq₂
      obtain ⟨pv₁, hpv₁, he₁⟩ := List.mem_map.mp hq₁
      obtain ⟨pv₂, hpv₂, he₂⟩ := List.mem_map.mp hq₂
      obtain ⟨k₁, t₁, _, ht₁⟩ := dict_to_flatdict_shape (parent ++ [k]) sub pv₁ hpv₁
      obtain ⟨k₂, t₂, hk₂, ht₂⟩ := dict_to_flatdict_shape parent rest pv₂ hpv₂
      rw [← he₁, ht₁] at he₂
      rw [ht₂, List.append_assoc] at he₂
      have h : k₂ = k ∧ t₂ = k₁ :: t₁ := by
        simpa using List.append_cancel_left he₂
      rw [h.1] at hk₂
      exact hknotin hk₂

/-- The nested dict of claim C1's counterexample: a mapping holding one empty
sub-mapping, the Python dict `d = dict(a = dict())` with `a` coded as `0`. -/
def dC1 : NDict Nat Nat := [(0, NVal.node [])]

/-- C1, counterexample.  The claim quantifies over every nested mapping of
hashable keys whose leaf values are non-mappings; `dC1` is such a mapping (it
has no leaf values at all), yet flattening loses the empty sub-mapping and the
round trip returns the empty dict, not the original. -/
theorem flat_unflat_counterexample :
    dict_to_flatdict [] dC1 = [] ∧
      flatdict_to_dict (dict_to_flatdict [] dC1) ≠ some dC1 := by
  constructor
  · simp [dC1, dict_to_flatdict]
  · simp [dC1, dict_to_flatdict, flatdict_to_dict, unflatten_fold]

/-- C1, amended.  For every nested mapping with pairwise-distinct keys at
each level and no empty sub-mapping among its values, flattening with
`dict_to_flatdict` and unflattening with `flatdict_to_dict` reproduces the
original mapping exactly. -/
theorem flat_unflat_roundtrip [DecidableEq K] (d : NDict K V)
    (hwf : wf_dict d = true) :
    flatdict_to_dict (dict_to_flatdict [] d) = some d := by
  have h := unflatten_fold_flatdict [] d [] hwf (fun k _ => rfl)
  simpa [flatdict_to_dict] using h

/-- Concrete nested dict witnessing the amended C1 round trip. -/
def dW1 : NDict Nat Nat :=
  [(0, NVal.leaf 5), (1, NVal.node [(2, NVal.leaf 7), (3, NVal.node [(4, NVal.leaf 9)])])]

/-- Witness for the amended C1 round trip at a concrete two-level dict. -/
theorem flat_unflat_roundtrip_witness :
    wf_dict dW1 = true ∧ flatdict_to_dict (dict_to_flatdict [] dW1) = some dW1 :=
  ⟨by simp [dW1, wf_dict], flat_unflat_roundtrip dW1 (by simp [dW1, wf_dict])⟩

/-- Two key paths are incomparable when neither is a (possibly equal) prefix
of the other.  This is the precondition under which `flatdict_to_dict` can
rebuild a flat dict without key collisions. -/
def Incomp (p q : List K) : Prop := ¬ p <+: q ∧ ¬ q <+: p

instance [DecidableEq K] (p q : List K) : Decidable (Incomp p q) :=
  inferInstanceAs (Decidable (¬ p <+: q ∧ ¬ q <+: p))

theorem flatdict_singleton_leaf (k : K) (v : V) :
    dict_to_flatdict ([] : List K) [(k, NVal.leaf v)] = [([k], v)] := by
  simp [dict_to_flatdict]

theorem flatdict_singleton_node (k : K) (s : NDict K V) :
    dict_to_flatdict ([] : List K) [(k, NVal.node s)] =
      (dict_to_flatdict [] s).map (fun pv => (k :: pv.1, pv.2)) := by
  simp only [dict_to_flatdict, List.append_nil, List.nil_append,
    dict_to_flatdict_eq_map [k] s]
  simp

theorem flatdict_cons_split (e : K × NVal K V) (d : NDict K V) :
    dict_to_flatdict ([] : List K) (e :: d) =
      dict_to_flatdict [] [e] ++ dict_to_flatdict [] d := by
  have h : e :: d = [e] ++ d := rfl
  rw [h, dict_to_flatdict_append]

/-- Flattening a dict with a distinguished middle entry splits into the three
corresponding slices. -/
theorem flatdict_middle (d₁ d₂ : NDict K V) (e : K × NVal K V) :
    dict_to_flatdict ([] : List K) (d₁ ++ e :: d₂) =
      dict_to_flatdict [] d₁ ++
        (dict_to_flatdict [] [e] ++ dict_to_flatdict [] d₂) := by
  rw [dict_to_flatdict_append, flatdict_cons_split]

/-- Permutation bookkeeping: replacing a middle slice by a permuted copy with
one extra element is a permutation of appending that element at the end. -/
theorem perm_append_mid {α : Type} (F₁ M M' F₂ : List α) (a : α)
    (h : M'.Perm (M ++ [a])) :
    (F₁ ++ (M' ++ F₂)).Perm (F₁ ++ (M ++ F₂) ++ [a]) := by
  refine List.Perm.trans (List.Perm.append_left F₁ (List.Perm.append_right F₂ h)) ?_
  have h₂ : (([a] : List α) ++ F₂).Perm (F₂ ++ [a]) := List.perm_append_comm
  have h₃ : ((M ++ [a]) ++ F₂).Perm (M ++ F₂ ++ [a]) := by
    rw [List.append_assoc, List.append_assoc]
    exact List.Perm.append_left M h₂
  refine List.Perm.trans (List.Perm.append_left F₁ h₃) ?_
  rw [← List.append_assoc]

/-- Inserting one key path `p` into a result dict succeeds, and adds exactly
the item `(p, v)` to its flattening (up to reordering), provided `p` is
nonempty and incomparable with every key path already present. -/
theorem insertPath_perm [DecidableEq K] (p : List K) :
    ∀ (d : NDict K V) (v : V), p ≠ [] →
      (∀ q ∈ (dict_to_flatdict [] d).map Prod.fst, Incomp q p) →
      ∃ d', insertPath d p v = some d' ∧
        (dict_to_flatdict [] d').Perm (dict_to_flatdict [] d ++ [(p, v)]) := by
  induction p with
  | nil => intro d v h _; exact absurd rfl h
  | cons k rest ih =>
      intro d v _ hq
      cases rest with
      | nil =>
          refine ⟨setKey d k (NVal.leaf v), rfl, ?_⟩
          cases hl : lookup d k with
          | none =>
              rw [setKey_of_not_mem _ (lookup_eq_none_iff.mp hl),
                dict_to_flatdict_append, flatdict_singleton_leaf]
          | some x =>
              obtain ⟨d₁, d₂, hd, hmem⟩ := exists_of_lookup_eq_some hl
              have hx : dict_to_flatdict ([] : List K) [(k, x)] = [] := by
                by_contra hne
                obtain ⟨pv, hpv⟩ := List.exists_mem_of_ne_nil _ hne
                obtain ⟨k', t, hk', ht⟩ := dict_to_flatdict_shape [] [(k, x)] pv hpv
                simp only [List.map_cons, List.map_nil, List.mem_singleton] at hk'
                have hmemd : pv ∈ dict_to_flatdict ([] : List K) d :=
                  flatdict_mem_of_entry [] (by simp [hd]) pv hpv
                have hinc := hq pv.1 (List.mem_map.mpr ⟨pv, hmemd, rfl⟩)
                exact hinc.2 (by rw [ht, hk']; simp [List.cons_prefix_cons])
              subst hd
              rw [setKey_append_of_not_mem _ hmem]
              rw [flatdict_middle d₁ d₂ (k, NVal.leaf v),
                flatdict_middle d₁ d₂ (k, x), hx, flatdict_singleton_leaf]
              exact perm_append_mid _ [] _ _ _ (List.Perm.refl _)
      | cons a b =>
          cases hl : lookup d k with
          | none =>
              obtain ⟨s', hs', hperm⟩ := ih [] v (by simp) (by simp [dict_to_flatdict])
              have hs'eq : dict_to_flatdict ([] : List K) s' = [(a :: b, v)] :=
                List.perm_singleton.mp (by simpa [dict_to_flatdict] using hperm)
              refine ⟨d ++ [(k, NVal.node s')], ?_, ?_⟩
              · simp [insertPath, hl, hs']
              · rw [dict_to_flatdict_append, flatdict_singleton_node, hs'eq]
                simp
          | some x =>
              cases x with
              | leaf w =>
                  exfalso
                  have hmemd : ([k], w) ∈ dict_to_flatdict ([] : List K) d :=
                    mem_flatdict_of_leaf (mem_of_lookup_eq_some hl)
                  have hinc := hq [k] (List.mem_map.mpr ⟨([k], w), hmemd, rfl⟩)
                  exact hinc.1 (by simp [List.cons_prefix_cons])
              | node s =>
                  obtain ⟨d₁, d₂, hd, hmem⟩ := exists_of_lookup_eq_some hl
                  have hq' : ∀ q ∈ (dict_to_flatdict ([] : List K) s).map Prod.fst,
                      Incomp q (a :: b) := by
                    intro q hqs
                    obtain ⟨pv, hpv, hfst⟩ := List.mem_map.mp hqs
                    have hmemd : (k :: pv.1, pv.2) ∈ dict_to_flatdict ([] : List K) d :=
                      mem_flatdict_of_node (mem_of_lookup_eq_some hl) hpv
                    have hinc := hq (k :: pv.1)
                      (List.mem_map.mpr ⟨(k :: pv.1, pv.2), hmemd, rfl⟩)
                    rw [hfst] at hinc
                    constructor
                    · intro hpre
                      exact hinc.1 (List.cons_prefix_cons.mpr ⟨rfl, hpre⟩)
                    · intro hpre
                      exact hinc.2 (List.cons_prefix_cons.mpr ⟨rfl, hpre⟩)
                  obtain ⟨s', hs', hperm⟩ := ih s v (by simp) hq'
                  refine ⟨setKey d k (NVal.node s'), ?_, ?_⟩
                  · simp [insertPath, hl, hs']
                  · subst hd
                    rw [setKey_append_of_not_mem _ hmem]
                    rw [flatdict_middle d₁ d₂ (k, NVal.node s'),
                      flatdict_middle d₁ d₂ (k, NVal.node s),
                      flatdict_singleton_node, flatdict_singleton_node]
                    refine perm_append_mid _ _ _ _ _ ?_
                    have hmapped := hperm.map (fun pv => (k :: pv.1, pv.2))
                    simpa using hmapped

/-- Folding a flat dict of nonempty, pairwise incomparable key paths into a
result dict succeeds and appends exactly those items to its flattening, up to
reordering. -/
theorem unflatten_fold_perm [DecidableEq K] (fd : FlatDict K V) :
    ∀ acc : NDict K V,
      (∀ pv ∈ fd, pv.1 ≠ []) →
      List.Pairwise Incomp (fd.map Prod.fst) →
      (∀ q ∈ (dict_to_flatdict [] acc).map Prod.fst,
        ∀ p ∈ fd.map Prod.fst, Incomp q p) →
      ∃ d', unflatten_fold acc fd = some d' ∧
        (dict_to_flatdict [] d').Perm (dict_to_flatdict [] acc ++ fd) := by
  induction fd with
  | nil =>
      intro acc _ _ _
      exact ⟨acc, rfl, by simp⟩
  | cons pv rest ih =>
      intro acc hp hpair hacc
      obtain ⟨p, v⟩ := pv
      obtain ⟨acc₁, hins, hperm₁⟩ := insertPath_perm p acc v
        (hp (p, v) (by simp))
        (fun q hqmem => hacc q hqmem p (by simp))
      simp only [List.map_cons, List.pairwise_cons] at hpair
      have hacc₁ : ∀ q ∈ (dict_to_flatdict [] acc₁).map Prod.fst,
          ∀ p' ∈ rest.map Prod.fst, Incomp q p' := by
        intro q hqmem p' hp'
        have hkeys : ((dict_to_flatdict [] acc₁).map Prod.fst).Perm
            ((dict_to_flatdict [] acc).map Prod.fst ++ [p]) := by
          have h := hperm₁.map Prod.fst
          simpa using h
        rcases List.mem_append.mp ((List.Perm.mem_iff hkeys).mp hqmem) with hin | hin
        · exact hacc q hin p' (by simp [hp'])
        · rw [List.mem_singleton.mp hin]
          exact hpair.1 p' hp'
      obtain ⟨acc₂, hfold, hperm₂⟩ := ih acc₁
        (fun pv h => hp pv (by simp [h])) hpair.2 hacc₁
      refine ⟨acc₂, ?_, ?_⟩
      · simp only [unflatten_fold, hins]
        exact hfold
      · refine List.Perm.trans hperm₂ ?_
        have heq : (dict_to_flatdict [] acc ++ [(p, v)]) ++ rest =
            dict_to_flatdict [] acc ++ (p, v) :: rest := by simp
        rw [← heq]
        exact List.Perm.append_right rest hperm₁

/-- The flat dict of claim C2's counterexample: the Python dict with key
tuples `(0,)` and `(0, 1)`, one a proper prefix of the other. -/
def fdC2 : FlatDict Nat Nat := [([0], 1), ([0, 1], 2)]

/-- C2, counterexample.  The claim quantifies over every flat mapping keyed
by path tuples; on `fdC2` the unflattening walk runs into the leaf stored at
key `0` and the Python code raises `TypeError`, so nothing is reproduced. -/
theorem unflat_reflat_counterexample : flatdict_to_dict fdC2 = none := by
  simp [fdC2, flatdict_to_dict, unflatten_fold, insertPath, setKey, lookup]

/-- C2, amended.  For every flat mapping whose key tuples are nonempty and
pairwise incomparable (no key a prefix of another, which also makes them
pairwise distinct), unflattening succeeds and re-flattening reproduces the
original flat mapping up to entry order, i.e. an equal Python dict. -/
theorem unflat_reflat_roundtrip [DecidableEq K] (fd : FlatDict K V)
    (hp : ∀ pv ∈ fd, pv.1 ≠ [])
    (hpair : List.Pairwise Incomp (fd.map Prod.fst)) :
    ∃ d', flatdict_to_dict fd = some d' ∧ (dict_to_flatdict [] d').Perm fd := by
  obtain ⟨d', h₁, h₂⟩ := unflatten_fold_perm fd [] hp hpair
    (by simp [dict_to_flatdict])
  exact ⟨d', h₁, by simpa [dict_to_flatdict] using h₂⟩

/-- The flat dict witnessing the amended C2 round trip; its rebuild changes
the entry order, so the permutation in the statement is genuinely needed. -/
def fdW2 : FlatDict Nat Nat := [([0, 1], 1), ([2], 2), ([0, 3], 3)]

/-- Witness for the amended C2 round trip at a concrete flat dict. -/
theorem unflat_reflat_roundtrip_witness :
    (∀ pv ∈ fdW2, pv.1 ≠ []) ∧ List.Pairwise Incomp (fdW2.map Prod.fst) ∧
      ∃ d', flatdict_to_dict fdW2 = some d' ∧ (dict_to_flatdict [] d').Perm fdW2 :=
  ⟨by decide, by decide, unflat_reflat_roundtrip fdW2 (by decide) (by decide)⟩

/-- Run Handle.  Modelled from the spec: the `PrefectFuture` class
(prefect.core.futures is outside this slice) pairs the run identifier
assigned by the remote boundary with the locally computed result, with no
further behavior. -/
structure PrefectFuture (R A : Type) where
  run_id : R
  result : A
deriving DecidableEq

/-- The introspectable attributes of a Python callable that `Flow.__init__`
reads: `__name__`, the documentation text `inspect.getdoc` returns (`none`
when the callable has no docstring), and `__globals__.get("__file__")`. -/
structure PyFunc where
  fname : String
  doc : Option String
  file : Option String

/-- The `fn` argument of `Flow.__init__` as Python sees it: omitted (`None`),
some non-callable object carrying its truthiness (an `int` such as `5` is
truthy, `0` is falsy), or a callable (always truthy). -/
inductive PyFnArg where
  | noneArg : PyFnArg
  | nonCallable (truthy : Bool) : PyFnArg
  | callable (f : PyFunc) : PyFnArg

/-- The two `TypeError`s `Flow.__init__` raises; both are the spec's
InvalidInput kind. -/
inductive FlowInitError where
  | missingFn
  | fnNotCallable
deriving DecidableEq

/-- Python's `a or b` on an optional string `a`: both `None` and the empty
string are falsy and select `b`. -/
def pyStrOr (a b : Option String) : Option String :=
  match a with
  | some s => if s = "" then b else some s
  | none => b

/-- The constructed workflow-definition object; `executor` and the parameter
schema are opaque to this slice. -/
structure FlowObj (Ex Sch : Type) where
  name : String
  description : Option String
  version : Option String
  executor : Option Ex
  tags : Finset String
  parameters : Sch

/-- The field computation of `Flow.__init__` once `fn` is known callable:
`name or fn.__name__`, `description or inspect.getdoc(fn)`, `version or
(file_hash(flow_file) if flow_file else None)`, `set(tags if tags else [])`,
and `parameter_schema(self.fn)` derived once.  `file_hash` and
`parameter_schema` are the external collaborators of spec section 6, passed
in abstractly. -/
def Flow.make {Ex Sch : Type} (name : Option String) (f : PyFunc)
    (version : Option String) (executor : Option Ex)
    (description : Option String) (tags : Option (List String))
    (file_hash : String → String) (parameter_schema : PyFunc → Sch) :
    FlowObj Ex Sch :=
  { name := (pyStrOr name (some f.fname)).getD f.fname
    description := pyStrOr description f.doc
    version := pyStrOr version (f.file.map file_hash)
    executor := executor
    tags := (match tags with
             | some l => if l.isEmpty then [] else l
             | none => []).toFinset
    parameters := parameter_schema f }

/-- Embedding of `Flow.__init__`: first the `if not fn` check (both `None`
and a falsy non-callable raise the missing-argument `TypeError`), then the
`callable(fn)` check, then field construction. -/
def Flow.init {Ex Sch : Type} (name : Option String) (fn : PyFnArg)
    (version : Option String) (executor : Option Ex)
    (description : Option String) (tags : Option (List String))
    (file_hash : String → String) (parameter_schema : PyFunc → Sch) :
    Except FlowInitError (FlowObj Ex Sch) :=
  match fn with
  | PyFnArg.noneArg => Except.error FlowInitError.missingFn
  | PyFnArg.nonCallable truthy =>
      if truthy then Except.error FlowInitError.fnNotCallable
      else Except.error FlowInitError.missingFn
  | PyFnArg.callable f =>
      Except.ok (Flow.make name f version executor description tags
        file_hash parameter_schema)

/-- C5: constructing a Flow with `fn` omitted (or `None`) fails with the
missing-argument `TypeError`, and a non-callable `fn` value also fails with a
`TypeError` (the callability error when the value is truthy such as the
integer 5, the missing-argument one when it is falsy such as 0) — both the
spec's InvalidInput — and in both cases no Flow object is produced. -/
theorem flow_init_invalid_fn {Ex Sch : Type} (name version : Option String)
    (executor : Option Ex) (description : Option String)
    (tags : Option (List String)) (fh : String → String)
    (ps : PyFunc → Sch) (truthy : Bool) :
    Flow.init name PyFnArg.noneArg version executor description tags fh ps =
        Except.error FlowInitError.missingFn ∧
      Flow.init name (PyFnArg.nonCallable truthy) version executor description
          tags fh ps =
        Except.error
          (if truthy then FlowInitError.fnNotCallable
           else FlowInitError.missingFn) := by
  refine ⟨rfl, ?_⟩
  cases truthy <;> rfl

/-- C6: a Flow constructed without an explicit name takes the callable's
`__name__`; without an explicit description it takes the callable's
documentation text (absent exactly when the callable has none); and the
stored tags are the deduplicated set of the supplied tags' elements, empty
when tags are not supplied. -/
theorem flow_make_defaults {Ex Sch : Type} (f : PyFunc)
    (version : Option String) (executor : Option Ex)
    (tags : Option (List String)) (fh : String → String) (ps : PyFunc → Sch) :
    (Flow.make none f version executor none tags fh ps).name = f.fname ∧
      (Flow.make none f version executor none tags fh ps).description = f.doc ∧
      (Flow.make none f version executor none tags fh ps).tags =
        (tags.getD []).toFinset ∧
      (∀ s, s ∈ (Flow.make none f version executor none tags fh ps).tags ↔
        s ∈ tags.getD []) := by
  have htags : (@Flow.make Ex Sch none f version executor none
      tags fh ps).tags = (tags.getD []).toFinset := by
    cases tags with
    | none => rfl
    | some l =>
        by_cases h : l.isEmpty
        · simp [Flow.make, h, List.isEmpty_iff.mp h]
        · simp [Flow.make, h]
  refine ⟨rfl, rfl, htags, ?_⟩
  intro s
  rw [htags]
  exact List.mem_toFinset

/-- The observable events of one `Flow.__call__` invocation: the remote
run-registration call and the execution of the wrapped callable. -/
inductive FlowEv where
  | registered
  | executed
deriving DecidableEq

/-- The argument-validating wrapper `pydantic.validate_arguments` puts around
`fn`.  Modelled from the spec: a call coerces/validates the supplied
arguments (possibly failing with a validation error) and then runs the plain
callable's body on the coerced arguments, which may itself raise. -/
structure ValidatedCallable (Args CArgs Res Err : Type) where
  coerce : Args → Except Err CArgs
  body : CArgs → Except Err Res

/-- One call of the validated callable, as run by `Flow._run` via
`self.fn(*args, **kwargs)`. -/
def ValidatedCallable.call {Args CArgs Res Err : Type}
    (vc : ValidatedCallable Args CArgs Res Err) (args : Args) :
    Except Err Res :=
  (vc.coerce args).bind vc.body

/-- Embedding of `Flow.__call__`, its external collaborators abstract
(modelled from the spec): `bindPartial` stands for
`inspect.signature(self.fn).bind_partial(*args, **kwargs).arguments` and
`create_flow_run_sync` for the remote run registration, which this slice only
sees as returning a run identifier or raising.  The second component records
which boundary events happened, in source order: bind the arguments, register
the run, execute the validated callable, return the future. -/
def flowCall {Args CArgs Params RunId Res Err : Type}
    (bindPartial : Args → Except Err Params)
    (create_flow_run_sync : Params → Except Err RunId)
    (vc : ValidatedCallable Args CArgs Res Err) (args : Args) :
    Except Err (PrefectFuture RunId Res) × List FlowEv :=
  match bindPartial args with
  | Except.error e => (Except.error e, [])
  | Except.ok params =>
      match create_flow_run_sync params with
      | Except.error e => (Except.error e, [FlowEv.registered])
      | Except.ok run_id =>
          match vc.coerce args with
          | Except.error e => (Except.error e, [FlowEv.registered])
          | Except.ok ca =>
              match vc.body ca with
              | Except.error e =>
                  (Except.error e, [FlowEv.registered, FlowEv.executed])
              | Except.ok result =>
                  (Except.ok { run_id := run_id, result := result },
                    [FlowEv.registered, FlowEv.executed])

/-- C3: when binding succeeds, the remote registration returns `rid`, and the
validated callable's coercion and body succeed with `res` (the value the
plain wrapped callable produces for the coerced arguments), the invocation
returns the future pairing exactly that `rid` and that `res`. -/
theorem flow_call_spec {Args CArgs Params RunId Res Err : Type}
    (bp : Args → Except Err Params) (cr : Params → Except Err RunId)
    (vc : ValidatedCallable Args CArgs Res Err) (args : Args)
    (params : Params) (rid : RunId) (ca : CArgs) (res : Res)
    (hb : bp args = Except.ok params) (hr : cr params = Except.ok rid)
    (hc : vc.coerce args = Except.ok ca) (hres : vc.body ca = Except.ok res) :
    flowCall bp cr vc args =
      (Except.ok { run_id := rid, result := res },
        [FlowEv.registered, FlowEv.executed]) ∧
      vc.call args = Except.ok res := by
  constructor
  · simp [flowCall, hb, hr, hc, hres]
  · simp only [ValidatedCallable.call, hc]
    exact hres

def bpW : Nat → Except Nat Nat := fun a => Except.ok a

def crW : Nat → Except Nat Nat := fun _ => Except.ok 42

def vcW : ValidatedCallable Nat Nat Nat Nat :=
  ⟨fun a => Except.ok a, fun a => Except.ok (a + 1)⟩

/-- Witness for C3 at a concrete flow invocation. -/
theorem flow_call_spec_witness :
    flowCall bpW crW vcW 3 =
      (Except.ok { run_id := 42, result := 4 },
        [FlowEv.registered, FlowEv.executed]) ∧
      vcW.call 3 = Except.ok 4 :=
  flow_call_spec bpW crW vcW 3 3 42 3 4 rfl rfl rfl rfl

/-- C4: in every invocation the event trace is a prefix of registration then
execution, so the wrapped callable never runs before the registration call
has completed; and when the registration call raises, the invocation returns
that error with no execution event and no future. -/
theorem flow_call_registration_order {Args CArgs Params RunId Res Err : Type}
    (bp bp' : Args → Except Err Params) (cr cr' : Params → Except Err RunId)
    (vc vc' : ValidatedCallable Args CArgs Res Err) (args args' : Args)
    (params : Params) (e : Err)
    (hb : bp args = Except.ok params) (hr : cr params = Except.error e) :
    flowCall bp cr vc args = (Except.error e, [FlowEv.registered]) ∧
      FlowEv.executed ∉ (flowCall bp cr vc args).2 ∧
      (flowCall bp' cr' vc' args').2 <+: [FlowEv.registered, FlowEv.executed] := by
  have h₁ : flowCall bp cr vc args = (Except.error e, [FlowEv.registered]) := by
    simp [flowCall, hb, hr]
  refine ⟨h₁, ?_, ?_⟩
  · rw [h₁]
    simp
  · have h0 : ([] : List FlowEv) <+: [FlowEv.registered, FlowEv.executed] := by
      decide
    have hone : [FlowEv.registered] <+: [FlowEv.registered, FlowEv.executed] := by
      decide
    have htwo : [FlowEv.registered, FlowEv.executed] <+:
        [FlowEv.registered, FlowEv.executed] := by decide
    rcases hbp : bp' args' with e' | params'
    · simp [flowCall, hbp, h0]
    · rcases hcr : cr' params' with e' | rid'
      · simp [flowCall, hbp, hcr, hone]
      · rcases hco : vc'.coerce args' with e' | ca'
        · simp [flowCall, hbp, hcr, hco, hone]
        · rcases hbo : vc'.body ca' with e' | res'
          · simp [flowCall, hbp, hcr, hco, hbo, htwo]
          · simp [flowCall, hbp, hcr, hco, hbo, htwo]

def crE : Nat → Except Nat Nat := fun _ => Except.error 7

/-- Witness for C4 at a concrete invocation whose registration call fails. -/
theorem flow_call_registration_order_witness :
    flowCall bpW crE vcW 3 = (Except.error 7, [FlowEv.registered]) ∧
      FlowEv.executed ∉ (flowCall bpW crE vcW 3).2 ∧
      (flowCall bpW crW vcW 3).2 <+: [FlowEv.registered, FlowEv.executed] :=
  flow_call_registration_order bpW bpW crE crW vcW vcW 3 3 3 7 rfl rfl

/-- A variable record as the orchestration client returns it: a named single
string value (spec section 3, Remote Variable). -/
structure Variable where
  vname : String
  value : String

/-- Embedding of `variables.get(name, default)`.  The remote boundary
`client.read_variable_by_name` (outside this slice) is modelled from the spec
as an abstract function returning either an error, a variable record, or a
not-found outcome — `none`, which is what the source's falsy test
`variable.value if variable else default` distinguishes.  The
synchronization adapter `from_sync.call_soon_in_loop_thread(...).result()`
transparently returns that call's value or re-raises its error, and
`_get_variable_by_name` passes the client's record through unchanged. -/
def variables.get {Err : Type} (name : String) (default : Option String)
    (read_variable_by_name : String → Except Err (Option Variable)) :
    Except Err (Option String) :=
  match read_variable_by_name name with
  | Except.error e => Except.error e
  | Except.ok (some v) => Except.ok (some v.value)
  | Except.ok none => Except.ok default

/-- C7: when the boundary reports the name as not found, `variables.get`
returns the supplied default (absent when none was supplied) without raising;
when the boundary resolves a variable, it returns exactly that variable's
stored value; and any other boundary error propagates unmodified. -/
theorem variables_get_spec {Err : Type} (name : String)
    (default : Option String)
    (client : String → Except Err (Option Variable)) :
    (client name = Except.ok none →
      variables.get name default client = Except.ok default) ∧
      (∀ v : Variable, client name = Except.ok (some v) →
        variables.get name default client = Except.ok (some v.value)) ∧
      (∀ e : Err, client name = Except.error e →
        variables.get name default client = Except.error e) := by
  refine ⟨?_, ?_, ?_⟩
  · intro h
    simp [variables.get, h]
  · intro v h
    simp [variables.get, h]
  · intro e h
    simp [variables.get, h]

def clientNotFound : String → Except Nat (Option Variable) :=
  fun _ => Except.ok none

/-- Witness for C7: a not-found lookup returns the supplied default. -/
theorem variables_get_spec_witness :
    clientNotFound "answer" = Except.ok none ∧
      variables.get "answer" (some "fallback") clientNotFound =
        Except.ok (some "fallback") :=
  ⟨rfl, (variables_get_spec "answer" (some "fallback") clientNotFound).1 rfl⟩

/-- A Python type object as `isinstance` and dict keys see it: identified by
`tid` (type identity — distinct Python types have distinct identities,
and a dict keyed by type objects compares keys by that identity), together
with its instance predicate. -/
structure PyType (α : Type) where
  tid : Nat
  isinst : α → Bool

/-- Dict lookup by type key in the `defaultdict(list)` of
`extract_instances`. -/
def dlookup {α : Type} : List (PyType α × List α) → Nat → Option (List α)
  | [], _ => none
  | (t, l) :: rest, n => if t.tid = n then some l else dlookup rest n

/-- `ret[type_].append(o)` on a `defaultdict(list)`: append to the existing
list in place, or create the key at the end holding the one-element list. -/
def dappend {α : Type} :
    List (PyType α × List α) → PyType α → α → List (PyType α × List α)
  | [], t, o => [(t, [o])]
  | (t', l) :: rest, t, o =>
      if t'.tid = t.tid then (t', l ++ [o]) :: rest
      else (t', l) :: dappend rest t o

/-- The inner loop of `extract_instances`: for one object, append it under
every requested type it is an instance of. -/
def typeLoop {α : Type} (r : List (PyType α × List α)) (o : α)
    (types : List (PyType α)) : List (PyType α × List α) :=
  types.foldl (fun r' t => if t.isinst o then dappend r' t o else r') r

/-- The nested loops of `extract_instances` building the defaultdict from the
empty dict. -/
def buildRet {α : Type} (objects : List α) (types : List (PyType α)) :
    List (PyType α × List α) :=
  objects.foldl (fun r o => typeLoop r o types) []

/-- Embedding of `extract_instances(objects, types)` after `ensure_iterable`
has turned the requested type or tuple of types into a list: build the
defaultdict; if exactly one type was requested return `ret[types[0]]` (which
a `defaultdict` answers with the empty list when the key is absent),
otherwise return the mapping itself. -/
def extract_instances {α : Type} (objects : List α)
    (types : List (PyType α)) : Sum (List α) (List (PyType α × List α)) :=
  let ret := buildRet objects types
  match types with
  | [t] => Sum.inl ((dlookup ret t.tid).getD [])
  | _ => Sum.inr ret

theorem dlookup_dappend_self {α : Type} (r : List (PyType α × List α))
    (t : PyType α) (o : α) :
    dlookup (dappend r t o) t.tid =
      some ((dlookup r t.tid).getD [] ++ [o]) := by
  induction r with
  | nil => simp [dappend, dlookup]
  | cons e rest ih =>
      obtain ⟨t', l⟩ := e
      by_cases h : t'.tid = t.tid <;> simp [dappend, dlookup, h, ih]

theorem dlookup_dappend_ne {α : Type} (r : List (PyType α × List α))
    (t : PyType α) (o : α) (n : Nat) (h : n ≠ t.tid) :
    dlookup (dappend r t o) n = dlookup r n := by
  induction r with
  | nil => simp [dappend, dlookup, Ne.symm h]
  | cons e rest ih =>
      obtain ⟨t', l⟩ := e
      by_cases h' : t'.tid = t.tid
      · simp [dappend, dlookup, h', Ne.symm h]
      · simp [dappend, dlookup, h', ih]

theorem dlookup_typeLoop_not_mem {α : Type} (ts : List (PyType α)) :
    ∀ (r : List (PyType α × List α)) (o : α) (n : Nat),
      n ∉ ts.map PyType.tid →
      dlookup (typeLoop r o ts) n = dlookup r n := by
  induction ts with
  | nil => intro r o n _; rfl
  | cons t₀ ts' ih =>
      intro r o n hn
      simp only [List.map_cons, List.mem_cons] at hn
      push_neg at hn
      simp only [typeLoop, List.foldl_cons]
      rw [show List.foldl (fun r' t => if t.isinst o then dappend r' t o else r')
          (if t₀.isinst o then dappend r t₀ o else r) ts' =
          typeLoop (if t₀.isinst o then dappend r t₀ o else r) o ts' from rfl]
      rw [ih _ o n hn.2]
      by_cases h : t₀.isinst o
      · rw [if_pos h, dlookup_dappend_ne _ _ _ _ hn.1]
      · rw [if_neg h]

theorem dlookup_typeLoop_mem {α : Type} (ts : List (PyType α)) :
    ∀ (r : List (PyType α × List α)) (o : α) (t : PyType α),
      (ts.map PyType.tid).Nodup → t ∈ ts →
      dlookup (typeLoop r o ts) t.tid =
        (if t.isinst o then some ((dlookup r t.tid).getD [] ++ [o])
         else dlookup r t.tid) := by
  induction ts with
  | nil => intro r o t _ hmem; simp at hmem
  | cons t₀ ts' ih =>
      intro r o t hnd hmem
      simp only [List.map_cons, List.nodup_cons] at hnd
      simp only [typeLoop, List.foldl_cons]
      rw [show List.foldl (fun r' t => if t.isinst o then dappend r' t o else r')
          (if t₀.isinst o then dappend r t₀ o else r) ts' =
          typeLoop (if t₀.isinst o then dappend r t₀ o else r) o ts' from rfl]
      rcases List.mem_cons.mp hmem with he | he
      · subst he
        rw [dlookup_typeLoop_not_mem ts' _ o t.tid hnd.1]
        by_cases h : t.isinst o
        · rw [if_pos h, if_pos h, dlookup_dappend_self]
        · rw [if_neg h, if_neg h]
      · have hne : t.tid ≠ t₀.tid := by
          intro hcontra
          exact hnd.1 (hcontra ▸ List.mem_map.mpr ⟨t, he, rfl⟩)
        rw [ih _ o t hnd.2 he]
        by_cases h : t₀.isinst o
        · rw [if_pos h, dlookup_dappend_ne _ _ _ _ hne]
        · rw [if_neg h]

theorem dlookup_objLoop_getD {α : Type} (os : List α) (ts : List (PyType α))
    (t : PyType α) (hnd : (ts.map PyType.tid).Nodup) (hmem : t ∈ ts) :
    ∀ r : List (PyType α × List α),
      (dlookup (os.foldl (fun r o => typeLoop r o ts) r) t.tid).getD [] =
        (dlookup r t.tid).getD [] ++ os.filter (fun o => t.isinst o) := by
  induction os with
  | nil => intro r; simp
  | cons o os' ih =>
      intro r
      simp only [List.foldl_cons]
      rw [ih (typeLoop r o ts), dlookup_typeLoop_mem ts r o t hnd hmem]
      by_cases h : t.isinst o
      · simp [h]
      · simp [h]

theorem dlookup_objLoop_none {α : Type} (os : List α) (ts : List (PyType α))
    (t : PyType α) (hnd : (ts.map PyType.tid).Nodup) (hmem : t ∈ ts) :
    ∀ r : List (PyType α × List α),
      (dlookup (os.foldl (fun r o => typeLoop r o ts) r) t.tid = none ↔
        dlookup r t.tid = none ∧ os.filter (fun o => t.isinst o) = []) := by
  induction os with
  | nil => intro r; simp
  | cons o os' ih =>
      intro r
      simp only [List.foldl_cons]
      rw [ih (typeLoop r o ts), dlookup_typeLoop_mem ts r o t hnd hmem]
      by_cases h : t.isinst o
      · simp [h]
      · simp [h]

/-- C8, amended.  With exactly one requested type the result is the list of
objects that are instances of it, in original order.  With a tuple of two or
more pairwise-distinct requested types the result is the mapping in which
every requested type with at least one matching object is sent to the list of
its matching objects in original order, while a requested type with no
matching object is absent from the mapping. -/
theorem extract_instances_spec {α : Type} (objects : List α)
    (types : List (PyType α)) (t t' : PyType α) (ht' : t' ∈ types)
    (h2 : 2 ≤ types.length) (hnd : (types.map PyType.tid).Nodup) :
    extract_instances objects [t] =
        Sum.inl (objects.filter (fun o => t.isinst o)) ∧
      extract_instances objects types = Sum.inr (buildRet objects types) ∧
      dlookup (buildRet objects types) t'.tid =
        (if (objects.filter (fun o => t'.isinst o)).isEmpty then none
         else some (objects.filter (fun o => t'.isinst o))) := by
  refine ⟨?_, ?_, ?_⟩
  · have h := dlookup_objLoop_getD objects [t] t (by simp) (by simp) []
    simp only [extract_instances, buildRet]
    rw [h]
    simp [dlookup]
  · match types, h2 with
    | t₁ :: t₂ :: rest, _ => rfl
  · have hgetD := dlookup_objLoop_getD objects types t' hnd ht' []
    have hnone := dlookup_objLoop_none objects types t' hnd ht' []
    rw [show List.foldl (fun r o => typeLoop r o types)
        ([] : List (PyType α × List α)) objects = buildRet objects types
      from rfl] at hgetD hnone
    simp only [dlookup, Option.getD_none, List.nil_append, true_and,
      eq_self_iff_true] at hgetD hnone
    by_cases hfil : (objects.filter (fun o => t'.isinst o)).isEmpty
    · rw [if_pos hfil]
      exact hnone.mpr (List.isEmpty_iff.mp hfil)
    · rw [if_neg hfil]
      cases hl : dlookup (buildRet objects types) t'.tid with
      | none => exact absurd (List.isEmpty_iff.mpr (hnone.mp hl)) hfil
      | some l =>
          rw [hl] at hgetD
          simp only [Option.getD_some] at hgetD
          rw [hgetD]

/-- The universe of the C8 counterexample: Python objects that are either
integers or strings, with the integer and string types as requested types. -/
def intT : PyType (Sum Nat String) := ⟨0, fun o => o.isLeft⟩

def strT : PyType (Sum Nat String) := ⟨1, fun o => o.isRight⟩

/-- C8, counterexample.  Requesting the tuple (string type, integer type) on
a list holding one integer and no string returns a mapping whose only key is
the integer type: the requested string type is not mapped to anything (its
matching list would be empty), contradicting the claim that each requested
type is mapped to its matching list. -/
theorem extract_instances_counterexample :
    extract_instances [Sum.inl 1] [strT, intT] =
        Sum.inr [(intT, [Sum.inl 1])] ∧
      dlookup [(intT, [Sum.inl 1])] strT.tid = none ∧
      ([Sum.inl 1] : List (Sum Nat String)).filter (fun o => strT.isinst o) = [] :=
  ⟨rfl, rfl, rfl⟩

/-- Witness for the amended C8 at a concrete mixed list of integers and
strings: the single-type call returns only the integers, and in the
two-type call both types match something and get their partitioned lists. -/
theorem extract_instances_spec_witness :
    extract_instances [Sum.inl 1, Sum.inr "a", Sum.inl 2] [intT] =
        Sum.inl [Sum.inl 1, Sum.inl 2] ∧
      extract_instances [Sum.inl 1, Sum.inr "a", Sum.inl 2] [strT, intT] =
        Sum.inr (buildRet [Sum.inl 1, Sum.inr "a", Sum.inl 2] [strT, intT]) ∧
      dlookup (buildRet [Sum.inl 1, Sum.inr "a", Sum.inl 2] [strT, intT])
          strT.tid =
        (if (([Sum.inl 1, Sum.inr "a", Sum.inl 2] :
              List (Sum Nat String)).filter (fun o => strT.isinst o)).isEmpty
         then none
         else some (([Sum.inl 1, Sum.inr "a", Sum.inl 2] :
              List (Sum Nat String)).filter (fun o => strT.isinst o))) := by
  have h := extract_instances_spec [Sum.inl 1, Sum.inr "a", Sum.inl 2]
    [strT, intT] intT strT (by simp) (by simp) (by simp [strT, intT])
  refine ⟨?_, h.2.1, h.2.2⟩
  have h1 := h.1
  simpa [intT] using h1

/-- Embedding of `batched_iterable(iterable, size)`: repeatedly slice the
next `size` elements off the running iterator (`itertools.islice`), stop at
the first empty batch, otherwise yield it and continue with the rest. -/
def batched_iterable {α : Type} (l : List α) (size : Nat) : List (List α) :=
  if (l.take size).isEmpty then []
  else l.take size :: batched_iterable (l.drop size) size
termination_by l.length
decreasing_by
  rename_i h
  rw [Bool.not_eq_true, List.isEmpty_eq_false, Ne, List.take_eq_nil_iff] at h
  push_neg at h
  have hpos := List.length_pos.mpr h.2
  simp only [List.length_drop]
  omega

/-- C9: for a positive batch size the batches concatenate back to the
original sequence (order preserved, source exhausted), every batch has
between 1 and `size` elements, every batch except possibly the last has
exactly `size` elements, and an empty sequence yields no batches. -/
theorem batched_iterable_spec {α : Type} (l : List α) (size : Nat)
    (hsize : 0 < size) :
    (batched_iterable l size).flatten = l ∧
      (∀ b ∈ batched_iterable l size, 1 ≤ b.length ∧ b.length ≤ size) ∧
      (∀ b ∈ (batched_iterable l size).dropLast, b.length = size) ∧
      (l = [] → batched_iterable l size = []) := by
  induction l, size using batched_iterable.induct with
  | case1 l size hcond =>
      rw [List.isEmpty_iff, List.take_eq_nil_iff] at hcond
      have hl : l = [] := by
        rcases hcond with h | h
        · omega
        · exact h
      subst hl
      rw [show batched_iterable ([] : List α) size = [] from by
        rw [batched_iterable]
        simp]
      simp
  | case2 l size hcond ih =>
      have hne : l.take size ≠ [] := by
        rw [Ne, ← List.isEmpty_iff]
        simp [hcond]
      have hldef : batched_iterable l size =
          l.take size :: batched_iterable (l.drop size) size := by
        rw [batched_iterable, if_neg (by simp [hcond])]
      obtain ⟨ihflat, ihlen, ihlast, _⟩ := ih hsize
      refine ⟨?_, ?_, ?_, ?_⟩
      · rw [hldef, List.flatten_cons, ihflat, List.take_append_drop]
      · intro b hb
        rw [hldef, List.mem_cons] at hb
        rcases hb with hb | hb
        · subst hb
          constructor
          · have := List.length_pos.mpr hne
            omega
          · rw [List.length_take]
            omega
        · exact ihlen b hb
      · intro b hb
        rw [hldef] at hb
        cases hrest : batched_iterable (l.drop size) size with
        | nil =>
            rw [hrest] at hb
            simp at hb
        | cons b₀ bs =>
            rw [hrest, List.dropLast_cons_of_ne_nil (by simp)] at hb
            have hlt : size < l.length := by
              by_contra hge
              push_neg at hge
              have hdrop : l.drop size = [] := List.drop_eq_nil_iff.mpr hge
              rw [hdrop] at hrest
              rw [show batched_iterable ([] : List α) size = [] from by
                rw [batched_iterable]
                simp] at hrest
              exact List.noConfusion hrest
            rcases List.mem_cons.mp hb with hb | hb
            · subst hb
              rw [List.length_take]
              omega
            · rw [← hrest] at hb
              exact ihlast b hb
      · intro hl
        subst hl
        simp at hne

/-- Witness for C9: seven elements batched in threes flatten back to the
original list; the concrete batches are of sizes 3, 3, 1. -/
theorem batched_iterable_spec_witness :
    0 < 3 ∧
      (batched_iterable [0, 1, 2, 3, 4, 5, 6] 3).flatten =
        [0, 1, 2, 3, 4, 5, 6] ∧
      batched_iterable [0, 1, 2, 3, 4, 5, 6] 3 = [[0, 1, 2], [3, 4, 5], [6]] ∧
      batched_iterable ([] : List Nat) 3 = [] :=
  ⟨by decide, (batched_iterable_spec [0, 1, 2, 3, 4, 5, 6] 3 (by decide)).1,
    by simp [batched_iterable],
    (batched_iterable_spec ([] : List Nat) 3 (by decide)).2.2.2 rfl⟩

/-- C10: a batch size of zero makes the very first slice empty, so the
generator terminates at once and yields no batches, for any source
iterable. -/
theorem batched_iterable_zero {α : Type} (l : List α) :
    batched_iterable l 0 = [] := by
  rw [batched_iterable]
  simp

end PrefectSpec
